import Mathlib

/-!
# Verification of the PDF_name_checker repository

A shallow embedding of the repository's core logic, together with proofs
about it.  The embedded functions are translated from the Python sources:

* `pdf_name_extractor.py` — `to_snake_case`, `extract_text_from_pdf`,
  `find_certification_name`, `rename_pdf_file`, `process_pdf`, `main`;
* `batch_pdf_rename.py` and `batch_pdf_preview.py` — the two batch drivers.

Modelling conventions:

* Strings are Lean `String`s; character-level work happens on `List Char`.
* Python's character primitives are modelled exactly on ASCII and on a
  small covered non-ASCII repertoire: `\w` is "alphanumeric or
  underscore" with the Unicode letters `é` (U+00E9) and `İ` (U+0130)
  included, `\s` is the six ASCII whitespace characters, and `str.lower`
  is a per-code-point map that carries the one-to-many mapping
  `İ → i` + combining dot above (U+0307).  Outside the covered
  repertoire the primitives act as identity/non-member; no theorem
  depends on that region (see `isNonAsciiLetter`).
* The filesystem is modelled explicitly: a directory listing is a
  `List String` of file names, and the batch drivers transform a
  `BatchState` record.  `pathlib.Path.exists` becomes list membership.
* A PDF document is a list of pages; each page carries its embedded text
  and an OCR oracle, a function from the rendering zoom factors to the
  recognised text.  A document that fails to open is `none`.
* Python exceptions surface as `Option`: `None`-returning failure paths
  of the source become `none`.
-/

set_option maxRecDepth 4096

/-! ## ASCII character model

Python's `re` character classes and `str` methods, restricted to ASCII.
`charCode` abbreviates the Unicode scalar value of a character. -/

def charCode (c : Char) : Nat := Char.toNat c

/-- Python `\s` and the default `str.strip` class: space, tab, newline,
carriage return, vertical tab, form feed.  Exact on ASCII; Unicode
whitespace is outside the covered repertoire and no theorem depends on
it. -/
def isPySpace (c : Char) : Bool :=
  charCode c = 32 || charCode c = 9 || charCode c = 10 ||
  charCode c = 13 || charCode c = 11 || charCode c = 12

def isAsciiUpper (c : Char) : Bool := 65 ≤ charCode c && charCode c ≤ 90

def isAsciiLower (c : Char) : Bool := 97 ≤ charCode c && charCode c ≤ 122

def isAsciiDigit (c : Char) : Bool := 48 ≤ charCode c && charCode c ≤ 57

def isAlnumChar (c : Char) : Bool := isAsciiUpper c || isAsciiLower c || isAsciiDigit c

/-- The underscore character, code 95. -/
def underscore : Char := Char.ofNat 95

/-- The space character, code 32. -/
def spaceChar : Char := Char.ofNat 32

def isUnder (c : Char) : Bool := charCode c = 95

/-- Non-ASCII word characters carried by the model: the letters
`é` (U+00E9) and `İ` (U+0130).  Python's `\w` matches every Unicode
alphanumeric; the model is exact on ASCII and on these two characters,
and treats every other non-ASCII character as a non-word character.  In
particular the combining dot above U+0307, which `İ` lowercases to, is
correctly not a word character (`'̇'.isalnum()` is false).  No
theorem depends on characters outside this covered region: the
universally quantified statements below either compare two functions
built from the same character primitives or assume an ASCII input, and
the concrete evaluations use only covered characters. -/
def isNonAsciiLetter (c : Char) : Bool := charCode c = 233 || charCode c = 304

/-- Python "alphanumeric" (`str.isalnum`) on the covered repertoire. -/
def isPyAlnum (c : Char) : Bool := isAlnumChar c || isNonAsciiLetter c

/-- Python `\w`: alphanumeric or underscore. -/
def isWordChar (c : Char) : Bool := isPyAlnum c || isUnder c

/-- ASCII case folding.  This models the `re.IGNORECASE` letter
comparison used by the locator's regexes, whose pattern letters are all
ASCII, and the `str.lower` applied to a file path before the `.pdf`
extension check. -/
def asciiLower (c : Char) : Char :=
  if isAsciiUpper c then Char.ofNat (charCode c + 32) else c

/-- Python `str.lower`, per code point.  A code point may lowercase to
more than one code point: `İ` (U+0130) becomes `i` followed by the
combining dot above U+0307.  The model is exact on ASCII and on the
covered non-ASCII characters (`é` is already lowercase, U+0307 is
unchanged), and the identity elsewhere. -/
def pyLower (c : Char) : List Char :=
  if isAsciiUpper c then [Char.ofNat (charCode c + 32)]
  else if charCode c = 304 then [Char.ofNat 105, Char.ofNat 775]
  else [c]

/-! ## Generic list-of-characters helpers

`collapseRuns p r` replaces every maximal run of characters satisfying
`p` by the single character `r`; it models `re.sub(p+, r, s)`.
`dropTrailing p` removes the maximal trailing run satisfying `p`;
together with `List.dropWhile` it models Python `str.strip`. -/

def collapseRunsAux (p : Char → Bool) (r : Char) : List Char → Bool → List Char
  | [], _ => []
  | c :: cs, inRun =>
    if p c then
      (if inRun then collapseRunsAux p r cs true else r :: collapseRunsAux p r cs true)
    else c :: collapseRunsAux p r cs false

def collapseRuns (p : Char → Bool) (r : Char) (l : List Char) : List Char :=
  collapseRunsAux p r l false

def dropTrailing (p : Char → Bool) : List Char → List Char
  | [] => []
  | c :: cs =>
    match dropTrailing p cs with
    | [] => if p c then [] else [c]
    | r => c :: r

/-- Python `str.strip` with the character class `p`: remove the maximal
leading and trailing runs of characters satisfying `p`. -/
def stripBoth (p : Char → Bool) (l : List Char) : List Char :=
  dropTrailing p (l.dropWhile p)

/-- Python `str.strip()` (whitespace) on a character list. -/
def stripWS (l : List Char) : List Char := stripBoth isPySpace l

/-! ## `to_snake_case` (`pdf_name_extractor.py`, lines 45-59)

The source pipeline, step by step:
1. `re.sub(r'[^\w\s]', ' ', text)` — every character that is neither a
   word character nor whitespace becomes a space;
2. `re.sub(r'\s+', ' ', text)` — whitespace runs collapse to one space;
3. `text.strip().lower()`;
4. `text.replace(' ', '_')`;
5. `re.sub(r'_+', '_', text)` — underscore runs collapse;
6. `text.strip('_')`. -/

def subNonWordWithSpace (l : List Char) : List Char :=
  l.map (fun c => if isWordChar c || isPySpace c then c else spaceChar)

def snakeList (l : List Char) : List Char :=
  let t1 := subNonWordWithSpace l
  let t2 := collapseRuns isPySpace spaceChar t1
  let t3 := (stripWS t2).flatMap pyLower
  let t4 := t3.map (fun c => if c = spaceChar then underscore else c)
  let t5 := collapseRuns isUnder underscore t4
  stripBoth isUnder t5

def to_snake_case (s : String) : String := String.mk (snakeList s.data)

/-! ## The specification's normalization algorithm, for comparison

`spec_normalize` follows the specification text word for word: "strip
every character that is not alphanumeric or whitespace; collapse runs of
whitespace to a single space; trim; lowercase; replace spaces with
underscores; collapse repeated underscores; trim leading/trailing
underscores".  "Strip" deletes the character, and "alphanumeric" does
not include the underscore.  All later steps coincide with the source
pipeline. -/

def spec_normalize (s : String) : String :=
  let t1 := (s.data).filter (fun c => isPyAlnum c || isPySpace c)
  let t2 := collapseRuns isPySpace spaceChar t1
  let t3 := (stripWS t2).flatMap pyLower
  let t4 := t3.map (fun c => if c = spaceChar then underscore else c)
  let t5 := collapseRuns isUnder underscore t4
  String.mk (stripBoth isUnder t5)

/-- The amended first step: every character that is neither a word
character (alphanumeric or underscore) nor whitespace is replaced by a
space rather than deleted; the remaining steps are unchanged.  This is
the specification's algorithm changed only where the counterexample
forces it. -/
def spec_normalize_amended (s : String) : String :=
  let t1 := (s.data).map
    (fun c => if isPyAlnum c || isUnder c || isPySpace c then c else spaceChar)
  let t2 := collapseRuns isPySpace spaceChar t1
  let t3 := (stripWS t2).flatMap pyLower
  let t4 := t3.map (fun c => if c = spaceChar then underscore else c)
  let t5 := collapseRuns isUnder underscore t4
  String.mk (stripBoth isUnder t5)

/-! ## `extract_text_from_pdf` (`pdf_name_extractor.py`, lines 62-108)

A page carries its embedded text (`page.get_text()`) and an OCR oracle:
a function from the zoom matrix passed to `page.get_pixmap` to the text
`pytesseract` recognises on the rendered image.  A document that fails
to open (the `except` branch of the source) is `none`. -/

structure PdfPage where
  text : String
  render : Rat × Rat → String

/-- The direct-extraction concatenation: pages whose embedded text is
non-blank contribute `page_text + "\n"`. -/
def embeddedTextConcat : List PdfPage → String
  | [] => ""
  | p :: ps =>
    (if stripWS p.text.data = [] then "" else p.text ++ "\n") ++ embeddedTextConcat ps

/-- The OCR fallback concatenation: every page is rendered with
`fitz.Matrix(2.0, 2.0)` and contributes its recognised text plus a
newline. -/
def ocrTextConcat : List PdfPage → String
  | [] => ""
  | p :: ps => p.render (2, 2) ++ "\n" ++ ocrTextConcat ps

/-- The function `extract_text_from_pdf`, translated from the source: build the
direct concatenation with a `for` loop; if its stripped form is truthy
and longer than 50 characters return it, otherwise run the OCR loop. -/
def extract_text_from_pdf (doc : Option (List PdfPage)) : Option String :=
  match doc with
  | none => none
  | some pages =>
    let direct := pages.foldl
      (fun acc p => if stripWS p.text.data = [] then acc else acc ++ p.text ++ "\n") ""
    if stripWS direct.data ≠ [] ∧ 50 < (stripWS direct.data).length then some direct
    else some (pages.foldl (fun acc p => acc ++ p.render (2, 2) ++ "\n") "")

/-! ## `find_certification_name` (`pdf_name_extractor.py`, lines 111-146)

The source uses two regexes, both `re.IGNORECASE`:

* `this\s+is\s+to\s+certify\s+that` — presence test on a line;
* `this\s+is\s+to\s+certify\s+that\s+(.+)` — same-line capture.

`matchPhraseAt` matches the phrase at the start of a character list and
returns the remainder after `that`; the whitespace between words is
consumed maximally, which agrees with backtracking because every word of
the phrase starts with a non-whitespace character.  `captureTail` is the
trailing `\s+(.+)` of the capture regex: at least one whitespace
character, then at least one captured character, the whitespace consumed
greedily.  The search functions try every start position from the left,
as `re.search` does. -/

def matchLitCI : List Char → List Char → Option (List Char)
  | [], s => some s
  | _ :: _, [] => none
  | p :: ps, c :: cs => if asciiLower c = p then matchLitCI ps cs else none

def wsPlus : List Char → Option (List Char)
  | [] => none
  | c :: cs => if isPySpace c then some (cs.dropWhile isPySpace) else none

def matchPhraseAt (s : List Char) : Option (List Char) :=
  (matchLitCI (("this").data) s).bind (fun r =>
  (wsPlus r).bind (fun r =>
  (matchLitCI (("is").data) r).bind (fun r =>
  (wsPlus r).bind (fun r =>
  (matchLitCI (("to").data) r).bind (fun r =>
  (wsPlus r).bind (fun r =>
  (matchLitCI (("certify").data) r).bind (fun r =>
  (wsPlus r).bind (fun r =>
  matchLitCI (("that").data) r))))))))

/-- The trailing `\s+(.+)` of the capture regex, applied to the text
after `that`: the whitespace run is consumed greedily, and when it
reaches the end of the line one whitespace character is given back to
satisfy `(.+)`. -/
def captureTail (s : List Char) : Option (List Char) :=
  let w := s.takeWhile isPySpace
  let r := s.dropWhile isPySpace
  if w = [] then none
  else if r ≠ [] then some r
  else if 2 ≤ w.length then some [w.getLastD spaceChar] else none

/-- Model of `re.search` for the presence regex: does the phrase occur anywhere
in the line? -/
def searchPhraseB : List Char → Bool
  | [] => false
  | c :: cs => (matchPhraseAt (c :: cs)).isSome || searchPhraseB cs

/-- Model of `re.search` for the capture regex: the leftmost start position at
which the phrase and its `\s+(.+)` tail both match, returning the
captured group. -/
def searchCapture : List Char → Option (List Char)
  | [] => none
  | c :: cs =>
    match (matchPhraseAt (c :: cs)).bind captureTail with
    | some g => some g
    | none => searchCapture cs

/-- Python `text.split('\n')` on a character list; keeps empty pieces,
and the empty text yields one empty line. -/
def splitLines : List Char → List (List Char)
  | [] => [[]]
  | c :: cs =>
    if charCode c = 10 then [] :: splitLines cs
    else
      match splitLines cs with
      | [] => [[c]]
      | l :: ls => (c :: l) :: ls

/-- The scanning loop of `find_certification_name`: at a line containing
the phrase, try the same-line capture (stripped, non-empty), then the
next line (stripped, non-empty), then the line after that; otherwise
resume the `for` loop at the following line. -/
def findNameLines : List (List Char) → Option (List Char)
  | [] => none
  | line :: rest =>
    if searchPhraseB line then
      let sameLn : Option (List Char) :=
        match searchCapture line with
        | some g => if stripWS g = [] then none else some (stripWS g)
        | none => none
      match sameLn with
      | some n => some n
      | none =>
        match rest with
        | [] => findNameLines rest
        | next :: rest2 =>
          if stripWS next ≠ [] then some (stripWS next)
          else
            match rest2 with
            | [] => findNameLines rest
            | nn :: _ =>
              if stripWS nn ≠ [] then some (stripWS nn) else findNameLines rest
    else findNameLines rest

def find_certification_name (text : String) : Option String :=
  if text.data = [] then none
  else (findNameLines (splitLines text.data)).map String.mk

/-! ## `rename_pdf_file` (`pdf_name_extractor.py`, lines 149-174)

The destination directory's listing is a `List String` of file names;
`Path.exists` is list membership.  The collision loop is literal:
starting from `counter = 1`, try `snake_case_name + "_" + str(counter) +
".pdf"` until a free name is found.  The loop is given `existing.length
+ 1` iterations of fuel; `destLoop_isSome` below proves that this many
iterations always suffice, so the fuel is not a semantic restriction. -/

def destName (snake : String) (n : Nat) : String :=
  snake ++ "_" ++ Nat.repr n ++ ".pdf"

def destLoop (existing : List String) (snake : String) : Nat → Nat → Option String
  | 0, _ => none
  | fuel + 1, counter =>
    if destName snake counter ∈ existing then destLoop existing snake fuel (counter + 1)
    else some (destName snake counter)

/-- Lines 157-165 of the source: the chosen destination file name. -/
def choose_dest (existing : List String) (snake : String) : Option String :=
  if snake ++ ".pdf" ∈ existing then destLoop existing snake (existing.length + 1) 1
  else some (snake ++ ".pdf")

/-- The function `rename_pdf_file`: normalize the candidate, choose a collision-free
destination, rename, and return the destination.  There is no check
that the normalized name is non-empty. -/
def rename_pdf_file (existing : List String) (new_name : String) : Option String :=
  choose_dest existing (to_snake_case new_name)

/-! ## `process_pdf` and `main` (`pdf_name_extractor.py`, lines 177-245)

`process_pdf` is a straight translation; the abstract inputs are
whether the file exists, its path, the parsed document (`none` when
text extraction raises), and the destination directory listing.
`main`'s `--preview-only` branch only prints and then `return`s, so the
interpreter exits with status 0 whatever happened; the default branch
exits with `0 if success else 1`. -/

def endsWithPdfLower (p : String) : Bool :=
  List.isSuffixOf ((".pdf").data) ((p.data).map asciiLower)

def process_pdf (fileExists : Bool) (pdf_path : String)
    (doc : Option (List PdfPage)) (existing : List String) : Bool :=
  if !fileExists then false
  else if !endsWithPdfLower pdf_path then false
  else
    match extract_text_from_pdf doc with
    | none => false
    | some t =>
      if t.data = [] then false
      else
        match find_certification_name t with
        | none => false
        | some cert =>
          if cert.data = [] then false
          else (rename_pdf_file existing cert).isSome

def pdf_name_extractor_main (preview_only : Bool) (fileExists : Bool)
    (pdf_path : String) (doc : Option (List PdfPage)) (existing : List String) : Nat :=
  if preview_only then 0
  else if process_pdf fileExists pdf_path doc existing then 0 else 1

/-! ## The batch drivers (`batch_pdf_rename.py`, `batch_pdf_preview.py`)

The relevant filesystem state: whether the input directory `pdf/`
exists, the `*.pdf` names it contains in glob order, whether the output
directory `pdf_renamed/` exists, and the file names in it.  `docOf`
maps an input file name to its parsed document, `none` when extraction
raises.  Each driver returns its exit status, the final state, and the
top-level messages it prints. -/

structure BatchState where
  pdfDirExists : Bool
  pdfFiles : List String
  renamedDirExists : Bool
  renamedFiles : List String
deriving DecidableEq

/-- The per-file loop of `batch_pdf_rename.py` (lines 24-45): extract,
locate, normalize, pick a collision-free name against the current
output listing, `shutil.copy2`.  Failures skip the file (`continue`).
The collision loop in the source is the same loop as in
`rename_pdf_file`, so it is embedded by the same `choose_dest`;
its `none` case is unreachable (`destLoop_isSome`). -/
def batchLoop (docOf : String → Option (List PdfPage)) :
    List String → List String → List String
  | [], renamed => renamed
  | f :: fs, renamed =>
    match extract_text_from_pdf (docOf f) with
    | none => batchLoop docOf fs renamed
    | some t =>
      if t.data = [] then batchLoop docOf fs renamed
      else
        match find_certification_name t with
        | none => batchLoop docOf fs renamed
        | some cert =>
          if cert.data = [] then batchLoop docOf fs renamed
          else
            match choose_dest renamed (to_snake_case cert) with
            | some dest => batchLoop docOf fs (renamed ++ [dest])
            | none => batchLoop docOf fs renamed

def batch_pdf_rename_main (docOf : String → Option (List PdfPage))
    (s : BatchState) : Nat × BatchState × List String :=
  let s1 : BatchState := { s with renamedDirExists := true }
  if !s1.pdfDirExists then (1, s1, [("Input directory pdf does not exist.")])
  else if s1.pdfFiles = [] then (0, s1, [("No PDF files found in pdf.")])
  else (0, { s1 with renamedFiles := batchLoop docOf s1.pdfFiles s1.renamedFiles }, [])

def batch_pdf_preview_main (_docOf : String → Option (List PdfPage))
    (s : BatchState) : Nat × BatchState × List String :=
  if !s.pdfDirExists then (1, s, [("Input directory pdf does not exist.")])
  else if s.pdfFiles = [] then (0, s, [("No PDF files found in pdf.")])
  else (0, s, [])

/-! ## Predicates and specification-side functions used by the theorems -/

/-- No two adjacent characters of the list both satisfy `p`. -/
def noRunP (p : Char → Bool) : List Char → Bool
  | a :: b :: t => !(p a && p b) && noRunP p (b :: t)
  | _ => true

def isLowerDigit (c : Char) : Bool := isAsciiLower c || isAsciiDigit c

/-- A deterministic automaton for the regular expression
`[a-z0-9]+(_[a-z0-9]+)*` anchored at both ends.  The flag records
whether the previous character was inside a group; an underscore is
legal only there, and acceptance requires ending inside a group. -/
def tokenDFA : List Char → Bool → Bool
  | [], inGroup => inGroup
  | c :: cs, inGroup =>
    if isLowerDigit c then tokenDFA cs true
    else if isUnder c then inGroup && tokenDFA cs false
    else false

/-- The anchored match `^[a-z0-9]+(_[a-z0-9]+)*$` of the specification:
only ASCII lowercase letters and digits, joined by single interior
underscores. -/
def matchesTokenRegex (s : String) : Bool := tokenDFA s.data false

/-- The remainder of a line after the leftmost occurrence of the marker
phrase, `re.search`-style: the first start position where the phrase
matches, with everything after `that` returned. -/
def firstPhraseRest : List Char → Option (List Char)
  | [] => none
  | c :: cs =>
    match matchPhraseAt (c :: cs) with
    | some r => some r
    | none => firstPhraseRest cs

/-- The same-line rule exactly as the claim words it: the trailing
same-line text after the phrase, trimmed, if non-empty. -/
def claimSameLine (line : List Char) : Option (List Char) :=
  match firstPhraseRest line with
  | some r => if stripWS r = [] then none else some (stripWS r)
  | none => none

/-- The same-line rule as the source implements it: the captured group
of `this\s+is\s+to\s+certify\s+that\s+(.+)`, trimmed, if non-empty. -/
def specSameLine (line : List Char) : Option (List Char) :=
  match searchCapture line with
  | some g => if stripWS g = [] then none else some (stripWS g)
  | none => none

/-- Trim a looked-ahead line and keep it only when non-empty. -/
def specTake : Option (List Char) → Option (List Char)
  | some l => if stripWS l = [] then none else some (stripWS l)
  | none => none

/-- The specification's scanning algorithm (spec section 4.3), written
index-first the way the claim describes it: scan lines in order for the
phrase; at a matching line try the given same-line rule, then the next
line, then the line after that; otherwise continue scanning from the
following line; return NotFound when the lines are exhausted.  The
`fuel` argument makes the recursion structural; with `fuel` at least
`lines.length - i` it never cuts the scan short, because the scan stops
at the first index without a line. -/
def specScan (sameLine : List Char → Option (List Char)) (lines : List (List Char)) :
    Nat → Nat → Option (List Char)
  | 0, _ => none
  | fuel + 1, i =>
    match lines.get? i with
    | none => none
    | some line =>
      if searchPhraseB line then
        match sameLine line with
        | some n => some n
        | none =>
          match specTake (lines.get? (i + 1)) with
          | some n => some n
          | none =>
            match specTake (lines.get? (i + 2)) with
            | some n => some n
            | none => specScan sameLine lines fuel (i + 1)
      else specScan sameLine lines fuel (i + 1)

/-- The locator as claim C7 states it, word for word. -/
def spec_locate_claim (text : String) : Option String :=
  if text.data = [] then none
  else
    (specScan claimSameLine (splitLines text.data) (splitLines text.data).length 0).map
      String.mk

/-- The locator as the claim states it, amended only in the same-line
rule: the trailing text counts only when the capture regex accepts it
(at least one whitespace character must separate it from the phrase). -/
def spec_locate_amended (text : String) : Option String :=
  if text.data = [] then none
  else
    (specScan specSameLine (splitLines text.data) (splitLines text.data).length 0).map
      String.mk

/-! ## Injectivity of `Nat.repr`

The collision loop appends `str(counter)` to the candidate name, so two
different counters always give two different file names.  This needs
the decimal representation to be injective, which we prove from first
principles: `decDigits` is a well-founded reformulation of
`Nat.toDigitsCore`, shown equal to it and then shown injective. -/

def decDigits (n : Nat) : List Char :=
  if _h : n < 10 then [Nat.digitChar n]
  else decDigits (n / 10) ++ [Nat.digitChar (n % 10)]
decreasing_by exact Nat.div_lt_self (by omega) (by omega)

theorem decDigits_lt (n : Nat) (h : n < 10) : decDigits n = [Nat.digitChar n] := by
  rw [decDigits]
  simp [h]

theorem decDigits_ge (n : Nat) (h : ¬ n < 10) :
    decDigits n = decDigits (n / 10) ++ [Nat.digitChar (n % 10)] := by
  conv_lhs => rw [decDigits]
  simp [h]

theorem toDigitsCore_append (fuel : Nat) :
    ∀ (n : Nat) (ds : List Char),
      Nat.toDigitsCore 10 fuel n ds = Nat.toDigitsCore 10 fuel n [] ++ ds := by
  induction fuel with
  | zero => intro n ds; simp [Nat.toDigitsCore]
  | succ fuel ih =>
    intro n ds
    simp only [Nat.toDigitsCore]
    by_cases h : n / 10 = 0
    · simp [h]
    · simp only [h, if_false]
      rw [ih (n / 10) [Nat.digitChar (n % 10)], ih (n / 10) (Nat.digitChar (n % 10) :: ds)]
      simp

theorem toDigitsCore_eq_decDigits :
    ∀ (n fuel : Nat), n < fuel → Nat.toDigitsCore 10 fuel n [] = decDigits n := by
  intro n
  induction n using Nat.strong_induction_on with
  | _ n ih =>
    intro fuel hlt
    match fuel with
    | 0 => omega
    | fuel + 1 =>
      simp only [Nat.toDigitsCore]
      by_cases h : n < 10
      · have hdiv : n / 10 = 0 := Nat.div_eq_of_lt h
        have hmod : n % 10 = n := Nat.mod_eq_of_lt h
        rw [if_pos hdiv, hmod, decDigits_lt n h]
      · have hdiv : ¬ n / 10 = 0 := by omega
        rw [if_neg hdiv, toDigitsCore_append]
        have hstep : n / 10 < n := Nat.div_lt_self (by omega) (by omega)
        rw [ih (n / 10) hstep fuel (by omega), decDigits_ge n h]

theorem toDigits_eq_decDigits (n : Nat) : Nat.toDigits 10 n = decDigits n :=
  toDigitsCore_eq_decDigits n (n + 1) (Nat.lt_succ_self n)

theorem digitChar_inj_lt :
    ∀ m, m < 10 → ∀ n, n < 10 → Nat.digitChar m = Nat.digitChar n → m = n := by decide

theorem decDigits_ne_nil (n : Nat) : decDigits n ≠ [] := by
  rw [decDigits]
  by_cases h : n < 10 <;> simp [h]

theorem decDigits_injective : ∀ m n : Nat, decDigits m = decDigits n → m = n := by
  intro m
  induction m using Nat.strong_induction_on with
  | _ m ih =>
    intro n heq
    by_cases hm : m < 10 <;> by_cases hn : n < 10
    · rw [decDigits_lt m hm, decDigits_lt n hn] at heq
      simp only [List.cons.injEq, and_true] at heq
      exact digitChar_inj_lt m hm n hn heq
    · rw [decDigits_lt m hm, decDigits_ge n hn] at heq
      have := congrArg List.length heq
      simp only [List.length_cons, List.length_nil, List.length_append] at this
      have h1 : 0 < (decDigits (n / 10)).length :=
        List.length_pos.mpr (decDigits_ne_nil _)
      omega
    · rw [decDigits_ge m hm, decDigits_lt n hn] at heq
      have := congrArg List.length heq
      simp only [List.length_cons, List.length_nil, List.length_append] at this
      have h1 : 0 < (decDigits (m / 10)).length :=
        List.length_pos.mpr (decDigits_ne_nil _)
      omega
    · rw [decDigits_ge m hm, decDigits_ge n hn] at heq
      have hrev := congrArg List.reverse heq
      simp only [List.reverse_append, List.reverse_cons, List.reverse_nil,
        List.nil_append, List.singleton_append, List.cons.injEq] at hrev
      obtain ⟨hdig, htail⟩ := hrev
      have hmod : m % 10 = n % 10 :=
        digitChar_inj_lt _ (Nat.mod_lt _ (by omega)) _ (Nat.mod_lt _ (by omega)) hdig
      have hdivlt : m / 10 < m := Nat.div_lt_self (by omega) (by omega)
      have hdiv : m / 10 = n / 10 :=
        ih (m / 10) hdivlt (n / 10) (List.reverse_injective htail)
      omega

theorem Nat_repr_injective : ∀ m n : Nat, Nat.repr m = Nat.repr n → m = n := by
  intro m n h
  apply decDigits_injective
  have hm := toDigits_eq_decDigits m
  have hn := toDigits_eq_decDigits n
  rw [← hm, ← hn]
  have : (Nat.toDigits 10 m).asString = (Nat.toDigits 10 n).asString := h
  have hd := congrArg String.data this
  simpa [List.asString] using hd

/-! ## The collision loop always finds a free name, and finds the first -/

theorem destName_inj (snake : String) (a b : Nat)
    (h : destName snake a = destName snake b) : a = b := by
  apply Nat_repr_injective
  apply String.ext
  have hd := congrArg String.data h
  simpa [destName, String.data_append, List.append_assoc] using hd

/-- Pigeonhole: among `existing.length + 1` successive counters, at
least one produces a name not in `existing`. -/
theorem destName_exists_free (existing : List String) (snake : String) (c : Nat) :
    ∃ n, c ≤ n ∧ n ≤ c + existing.length ∧ destName snake n ∉ existing := by
  by_contra hcon
  push_neg at hcon
  have hinj : Set.InjOn (destName snake) (Finset.Icc c (c + existing.length)) :=
    fun a _ b _ h => destName_inj snake a b h
  have hsub : ∀ n ∈ Finset.Icc c (c + existing.length),
      destName snake n ∈ existing.toFinset := by
    intro n hn
    rw [List.mem_toFinset]
    rw [Finset.mem_Icc] at hn
    exact hcon n hn.1 hn.2
  have hcard := Finset.card_le_card_of_injOn (destName snake) hsub hinj
  rw [Nat.card_Icc] at hcard
  have hlen := existing.toFinset_card_le
  omega

theorem destLoop_isSome (existing : List String) (snake : String) :
    ∀ (fuel c : Nat), (∃ n, c ≤ n ∧ n < c + fuel ∧ destName snake n ∉ existing) →
      (destLoop existing snake fuel c).isSome = true := by
  intro fuel
  induction fuel with
  | zero => rintro c ⟨n, h1, h2, _⟩; omega
  | succ fuel ih =>
    rintro c ⟨n, h1, h2, h3⟩
    simp only [destLoop]
    by_cases hmem : destName snake c ∈ existing
    · rw [if_pos hmem]
      apply ih
      refine ⟨n, ?_, by omega, h3⟩
      rcases Nat.eq_or_lt_of_le h1 with rfl | hlt
      · exact absurd hmem h3
      · omega
    · rw [if_neg hmem]
      rfl

/-- What the collision loop returns: the name at the first free counter
at or above the starting one. -/
theorem destLoop_eq (existing : List String) (snake : String) :
    ∀ (fuel c : Nat) (r : String), destLoop existing snake fuel c = some r →
      ∃ n, c ≤ n ∧ r = destName snake n ∧ destName snake n ∉ existing ∧
        ∀ m, c ≤ m → m < n → destName snake m ∈ existing := by
  intro fuel
  induction fuel with
  | zero => intro c r h; simp [destLoop] at h
  | succ fuel ih =>
    intro c r h
    simp only [destLoop] at h
    by_cases hmem : destName snake c ∈ existing
    · rw [if_pos hmem] at h
      obtain ⟨n, h1, h2, h3, h4⟩ := ih (c + 1) r h
      refine ⟨n, by omega, h2, h3, ?_⟩
      intro m hm1 hm2
      rcases Nat.eq_or_lt_of_le hm1 with rfl | hlt
      · exact hmem
      · exact h4 m (by omega) hm2
    · rw [if_neg hmem] at h
      exact ⟨c, le_refl c, (Option.some.inj h).symm, hmem, fun m hm1 hm2 => by omega⟩

/-- The chooser `choose_dest` always produces a destination: the fuel given to the
embedded loop is enough. -/
theorem choose_dest_isSome (existing : List String) (snake : String) :
    (choose_dest existing snake).isSome = true := by
  rw [choose_dest]
  by_cases hb : snake ++ ".pdf" ∈ existing
  · rw [if_pos hb]
    apply destLoop_isSome
    obtain ⟨n, h1, h2, h3⟩ := destName_exists_free existing snake 1
    exact ⟨n, h1, by omega, h3⟩
  · rw [if_neg hb]
    rfl

/-- C1: the rename/copy operation never overwrites an existing file.
For every destination directory state and candidate token, the chosen
destination is `snake.pdf` when that name is free, and otherwise
`snake_n.pdf` for the first integer `n ≥ 1` whose name is free; the
chosen name is never one of the existing files.  In particular, with
`foo.pdf` already present and derived token `foo`, the result is
`foo_1.pdf`. -/
theorem c1_rename_never_overwrites :
    (∀ (existing : List String) (snake : String),
      ∃ r, choose_dest existing snake = some r ∧ r ∉ existing ∧
        ((snake ++ ".pdf" ∉ existing ∧ r = snake ++ ".pdf") ∨
         (snake ++ ".pdf" ∈ existing ∧ ∃ n, 1 ≤ n ∧ r = destName snake n ∧
            destName snake n ∉ existing ∧
            ∀ m, 1 ≤ m → m < n → destName snake m ∈ existing))) ∧
    choose_dest [("foo.pdf")] ("foo") = some ("foo_1.pdf") := by
  constructor
  · intro existing snake
    by_cases hb : snake ++ ".pdf" ∈ existing
    · have hsome := choose_dest_isSome existing snake
      rw [choose_dest, if_pos hb] at hsome
      obtain ⟨r, hr⟩ := Option.isSome_iff_exists.mp hsome
      obtain ⟨n, h1, h2, h3, h4⟩ := destLoop_eq existing snake _ 1 r hr
      refine ⟨r, ?_, by rw [h2]; exact h3, Or.inr ⟨hb, n, h1, h2, h3, h4⟩⟩
      rw [choose_dest, if_pos hb]
      exact hr
    · refine ⟨snake ++ ".pdf", ?_, hb, Or.inl ⟨hb, rfl⟩⟩
      rw [choose_dest, if_neg hb]
  · decide

theorem c1_rename_never_overwrites_witness :
    choose_dest [("foo.pdf")] ("foo") = some ("foo_1.pdf") :=
  c1_rename_never_overwrites.2

/-- A destination chosen by `choose_dest` is never an existing file. -/
theorem choose_dest_not_mem (existing : List String) (snake : String) (r : String)
    (h : choose_dest existing snake = some r) : r ∉ existing := by
  rw [choose_dest] at h
  by_cases hb : snake ++ ".pdf" ∈ existing
  · rw [if_pos hb] at h
    obtain ⟨n, _, h2, h3, _⟩ := destLoop_eq existing snake _ 1 r h
    rw [h2]
    exact h3
  · rw [if_neg hb] at h
    rw [← Option.some.inj h]
    exact hb

/-- C2: refuted as stated.  `rename_pdf_file` has no empty-token check:
with candidate name `---` the normalized token is empty, yet the rename
proceeds and produces the destination `.pdf` instead of failing. -/
theorem c2_invalid_name_counterexample :
    to_snake_case ("---") = ("") ∧
    rename_pdf_file [] ("---") = some (".pdf") := by
  constructor
  · decide
  · decide

/-- C2 (amended): `rename_pdf_file` first normalizes the candidate name
and then always succeeds, returning a destination that is not an
existing file; an empty normalized token is not rejected, it simply
yields the destination `.pdf` (disambiguated on collision). -/
theorem c2_rename_normalizes_and_never_fails :
    ∀ (existing : List String) (new_name : String),
      rename_pdf_file existing new_name =
        choose_dest existing (to_snake_case new_name) ∧
      ∃ r, rename_pdf_file existing new_name = some r ∧ r ∉ existing := by
  intro existing new_name
  refine ⟨rfl, ?_⟩
  have hsome := choose_dest_isSome existing (to_snake_case new_name)
  obtain ⟨r, hr⟩ := Option.isSome_iff_exists.mp hsome
  exact ⟨r, hr, choose_dest_not_mem existing (to_snake_case new_name) r hr⟩

theorem c2_rename_normalizes_and_never_fails_witness :
    (rename_pdf_file [("x.pdf")] ("x")).isSome = true := by
  obtain ⟨-, r, hr, -⟩ := c2_rename_normalizes_and_never_fails [("x.pdf")] ("x")
  rw [hr]
  rfl

/-- C5: refuted as stated.  Under `--preview-only` the source's `main`
only prints and returns, so the interpreter exits with status 0 even
when text extraction fails; the claim expects exit code 1 there. -/
theorem c5_preview_exit_code_counterexample :
    extract_text_from_pdf none = none ∧
    pdf_name_extractor_main true true ("cert.pdf") none [] = 0 ∧
    pdf_name_extractor_main true true ("cert.pdf") none [] ≠ 1 := by
  refine ⟨rfl, rfl, by decide⟩

/-- C5 (amended): in the default mode the tool exits 0 on success and 1
on any processing failure; in `--preview-only` mode it always exits 0,
including when extraction fails. -/
theorem c5_exit_codes :
    ∀ (fileExists : Bool) (pdf_path : String) (doc : Option (List PdfPage))
      (existing : List String),
      pdf_name_extractor_main true fileExists pdf_path doc existing = 0 ∧
      pdf_name_extractor_main false fileExists pdf_path doc existing =
        (if process_pdf fileExists pdf_path doc existing then 0 else 1) := by
  intro fe p doc ex
  exact ⟨rfl, rfl⟩

/-- C6: refuted as stated for the rename driver.  With the input
directory present but empty and no output directory, the driver exits 0
but creates the output directory `pdf_renamed` before checking for
input files, so a filesystem write does occur. -/
theorem c6_empty_dir_counterexample :
    (batch_pdf_rename_main (fun _ => none) ⟨true, [], false, []⟩).1 = 0 ∧
    (batch_pdf_rename_main (fun _ => none) ⟨true, [], false, []⟩).2.1 ≠
      (⟨true, [], false, []⟩ : BatchState) ∧
    (batch_pdf_rename_main (fun _ => none) ⟨true, [], false, []⟩).2.1.renamedDirExists
      = true := by
  refine ⟨rfl, by decide, rfl⟩

/-- C6 (amended): with the input directory present and no `*.pdf` files,
both drivers exit 0 and report nothing to do; the preview driver leaves
the state untouched, and the rename driver's only write is creating the
output directory when absent (its file listings are unchanged). -/
theorem c6_empty_dir_behavior :
    ∀ (docOf : String → Option (List PdfPage)) (s : BatchState),
      s.pdfDirExists = true → s.pdfFiles = [] →
      batch_pdf_preview_main docOf s = (0, s, [("No PDF files found in pdf.")]) ∧
      batch_pdf_rename_main docOf s =
        (0, { s with renamedDirExists := true }, [("No PDF files found in pdf.")]) := by
  intro docOf s h1 h2
  constructor
  · simp [batch_pdf_preview_main, h1, h2]
  · simp [batch_pdf_rename_main, h1, h2]

theorem c6_empty_dir_behavior_witness :
    batch_pdf_preview_main (fun _ => none) ⟨true, [], true, []⟩ =
      (0, ⟨true, [], true, []⟩, [("No PDF files found in pdf.")]) ∧
    batch_pdf_rename_main (fun _ => none) ⟨true, [], true, []⟩ =
      (0, ⟨true, [], true, []⟩, [("No PDF files found in pdf.")]) :=
  c6_empty_dir_behavior (fun _ => none) ⟨true, [], true, []⟩ rfl rfl

/-! ## The extractor takes the fast path exactly above the threshold -/

theorem foldl_embedded (pages : List PdfPage) :
    ∀ acc : String,
      pages.foldl
        (fun acc p => if stripWS p.text.data = [] then acc else acc ++ p.text ++ "\n") acc
        = acc ++ embeddedTextConcat pages := by
  induction pages with
  | nil => intro acc; simp [embeddedTextConcat]
  | cons p ps ih =>
    intro acc
    simp only [List.foldl_cons, embeddedTextConcat]
    by_cases h : stripWS p.text.data = []
    · rw [if_pos h, if_pos h, ih, String.empty_append]
    · rw [if_neg h, if_neg h, ih]
      simp [String.append_assoc]

theorem foldl_ocr (pages : List PdfPage) :
    ∀ acc : String,
      pages.foldl (fun acc p => acc ++ p.render (2, 2) ++ "\n") acc
        = acc ++ ocrTextConcat pages := by
  induction pages with
  | nil => intro acc; simp [ocrTextConcat]
  | cons p ps ih =>
    intro acc
    simp only [List.foldl_cons, ocrTextConcat, ih]
    simp [String.append_assoc]

/-- C8: for every document that opens, the extractor returns the
concatenation of the embedded page texts exactly when its trimmed
length exceeds 50 characters, and otherwise the concatenation of the
per-page OCR output of pages rendered at 2.0x zoom. -/
theorem c8_extract_threshold_and_fallback :
    ∀ pages : List PdfPage,
      extract_text_from_pdf (some pages) =
        some (if 50 < (stripWS (embeddedTextConcat pages).data).length
              then embeddedTextConcat pages
              else ocrTextConcat pages) := by
  intro pages
  simp only [extract_text_from_pdf]
  rw [foldl_embedded pages "", String.empty_append, foldl_ocr pages "", String.empty_append]
  have hcond : (stripWS (embeddedTextConcat pages).data ≠ [] ∧
      50 < (stripWS (embeddedTextConcat pages).data).length) ↔
      50 < (stripWS (embeddedTextConcat pages).data).length := by
    constructor
    · exact fun h => h.2
    · intro h
      refine ⟨?_, h⟩
      intro hnil
      rw [hnil] at h
      simp at h
  rw [if_congr hcond rfl rfl]
  by_cases h : 50 < (stripWS (embeddedTextConcat pages).data).length
  · rw [if_pos h, if_pos h]
  · rw [if_neg h, if_neg h]

/-! ## Generic lemmas about `collapseRuns`, `dropTrailing` and `stripBoth` -/

theorem mem_collapseRunsAux (p : Char → Bool) (r : Char) :
    ∀ (l : List Char) (b : Bool) (c : Char),
      c ∈ collapseRunsAux p r l b → (c ∈ l ∧ p c = false) ∨ c = r := by
  intro l
  induction l with
  | nil => intro b c h; simp [collapseRunsAux] at h
  | cons a t ih =>
    intro b c h
    simp only [collapseRunsAux] at h
    by_cases hp : p a
    · rw [if_pos hp] at h
      by_cases hb : b
      · rw [if_pos hb] at h
        rcases ih true c h with ⟨h1, h2⟩ | h1
        · exact Or.inl ⟨List.mem_cons_of_mem a h1, h2⟩
        · exact Or.inr h1
      · rw [if_neg hb] at h
        rcases List.mem_cons.mp h with rfl | h1
        · exact Or.inr rfl
        · rcases ih true c h1 with ⟨h2, h3⟩ | h2
          · exact Or.inl ⟨List.mem_cons_of_mem a h2, h3⟩
          · exact Or.inr h2
    · rw [if_neg hp] at h
      rcases List.mem_cons.mp h with rfl | h1
      · exact Or.inl ⟨List.mem_cons_self c t, by simpa using hp⟩
      · rcases ih false c h1 with ⟨h2, h3⟩ | h2
        · exact Or.inl ⟨List.mem_cons_of_mem a h2, h3⟩
        · exact Or.inr h2

theorem mem_dropTrailing (p : Char → Bool) :
    ∀ (l : List Char) (c : Char), c ∈ dropTrailing p l → c ∈ l := by
  intro l
  induction l with
  | nil => intro c h; simp [dropTrailing] at h
  | cons a t ih =>
    intro c h
    simp only [dropTrailing] at h
    cases hdt : dropTrailing p t with
    | nil =>
      rw [hdt] at h
      by_cases hp : p a
      · simp [hp] at h
      · simp [hp] at h
        simp [h]
    | cons x xs =>
      rw [hdt] at h
      rcases List.mem_cons.mp h with rfl | h1
      · exact List.mem_cons_self c t
      · exact List.mem_cons_of_mem a (ih c (hdt ▸ h1))

theorem mem_stripBoth (p : Char → Bool) (l : List Char) (c : Char)
    (h : c ∈ stripBoth p l) : c ∈ l :=
  (List.dropWhile_sublist p (l := l)).mem (mem_dropTrailing p (l.dropWhile p) c h)

/-- The first character produced from the in-run state never satisfies
`p`: characters satisfying it are being skipped until the run ends. -/
theorem head_collapseRunsAux_true (p : Char → Bool) (r : Char) :
    ∀ (l : List Char) (c : Char),
      (collapseRunsAux p r l true).head? = some c → p c = false := by
  intro l
  induction l with
  | nil => intro c h; simp [collapseRunsAux] at h
  | cons a t ih =>
    intro c h
    simp only [collapseRunsAux] at h
    by_cases hp : p a
    · rw [if_pos hp] at h
      simp only [if_true] at h
      exact ih c h
    · rw [if_neg hp] at h
      simp only [List.head?_cons, Option.some.injEq] at h
      rw [← h]
      simpa using hp

theorem noRunP_cons_of_head (p : Char → Bool) (a : Char) :
    ∀ (l : List Char), (∀ x, l.head? = some x → p x = false) →
      noRunP p l = true → noRunP p (a :: l) = true := by
  intro l
  cases l with
  | nil => intro _ _; rfl
  | cons x xs =>
    intro hhead hrun
    have hx : p x = false := hhead x rfl
    simp only [noRunP, Bool.and_eq_true, Bool.not_eq_true']
    exact ⟨by simp [hx], hrun⟩

theorem noRunP_cons_of_not (p : Char → Bool) (a : Char) (ha : p a = false) :
    ∀ (l : List Char), noRunP p l = true → noRunP p (a :: l) = true := by
  intro l
  cases l with
  | nil => intro _; rfl
  | cons x xs =>
    intro hrun
    simp only [noRunP, Bool.and_eq_true, Bool.not_eq_true']
    exact ⟨by simp [ha], hrun⟩

theorem noRunP_tail (p : Char → Bool) (a : Char) (l : List Char)
    (h : noRunP p (a :: l) = true) : noRunP p l = true := by
  cases l with
  | nil => rfl
  | cons x xs =>
    simp only [noRunP, Bool.and_eq_true] at h
    exact h.2

theorem noRunP_collapseRunsAux (p : Char → Bool) (r : Char) :
    ∀ (l : List Char) (b : Bool), noRunP p (collapseRunsAux p r l b) = true := by
  intro l
  induction l with
  | nil => intro b; rfl
  | cons a t ih =>
    intro b
    simp only [collapseRunsAux]
    by_cases hp : p a
    · rw [if_pos hp]
      by_cases hb : b
      · rw [if_pos hb]
        exact ih true
      · rw [if_neg hb]
        exact noRunP_cons_of_head p r _
          (fun x hx => head_collapseRunsAux_true p r t x hx) (ih true)
    · rw [if_neg hp]
      exact noRunP_cons_of_not p a (by simpa using hp) _ (ih false)

theorem noRunP_dropWhile (p q : Char → Bool) :
    ∀ l : List Char, noRunP p l = true → noRunP p (l.dropWhile q) = true := by
  intro l
  induction l with
  | nil => intro _; rfl
  | cons a t ih =>
    intro h
    rw [List.dropWhile_cons]
    by_cases hq : q a
    · simp only [hq, if_true]
      exact ih (noRunP_tail p a t h)
    · simp only [hq, if_false]
      exact h

/-- The function `dropTrailing` keeps the head of the list when it returns anything. -/
theorem dropTrailing_head (p : Char → Bool) (a : Char) (t : List Char) :
    dropTrailing p (a :: t) = [] ∨ ∃ u, dropTrailing p (a :: t) = a :: u := by
  simp only [dropTrailing]
  cases hdt : dropTrailing p t with
  | nil =>
    by_cases hp : p a
    · simp [hp]
    · simp [hp]
  | cons x xs => simp

theorem noRunP_dropTrailing (p : Char → Bool) :
    ∀ l : List Char, noRunP p l = true → noRunP p (dropTrailing p l) = true := by
  intro l
  induction l with
  | nil => intro _; rfl
  | cons a t ih =>
    intro h
    simp only [dropTrailing]
    cases hdt : dropTrailing p t with
    | nil =>
      by_cases hp : p a
      · simp [hp, noRunP]
      · simp [hp, noRunP]
    | cons x xs =>
      have htail := ih (noRunP_tail p a t h)
      rw [hdt] at htail
      cases t with
      | nil => simp [dropTrailing] at hdt
      | cons a2 t2 =>
        rcases dropTrailing_head p a2 t2 with h0 | ⟨u, hu⟩
        · rw [h0] at hdt
          exact absurd hdt.symm (List.cons_ne_nil x xs)
        · rw [hu] at hdt
          injection hdt with hx hxs
          subst hx
          simp only [noRunP, Bool.and_eq_true] at h ⊢
          exact ⟨h.1, htail⟩

theorem head_dropWhile_not (p : Char → Bool) (l : List Char) (c : Char)
    (h : (l.dropWhile p).head? = some c) : p c = false := by
  have := List.head?_dropWhile_not p l
  rw [h] at this
  exact this

theorem getLast_dropTrailing (p : Char → Bool) :
    ∀ (l : List Char) (c : Char), (dropTrailing p l).getLast? = some c → p c = false := by
  intro l
  induction l with
  | nil => intro c h; simp [dropTrailing] at h
  | cons a t ih =>
    intro c h
    simp only [dropTrailing] at h
    cases hdt : dropTrailing p t with
    | nil =>
      rw [hdt] at h
      by_cases hp : p a
      · simp [hp] at h
      · rw [if_neg hp] at h
        simp only [List.getLast?_singleton, Option.some.injEq] at h
        rw [← h]
        simpa using hp
    | cons x xs =>
      rw [hdt] at h
      rw [List.getLast?_cons_cons] at h
      exact ih c (hdt ▸ h)

theorem head_dropTrailing (p : Char → Bool) (l : List Char) (c : Char)
    (h : (dropTrailing p l).head? = some c) : l.head? = some c := by
  cases l with
  | nil => simp [dropTrailing] at h
  | cons a t =>
    rcases dropTrailing_head p a t with h0 | ⟨u, hu⟩
    · rw [h0] at h
      simp at h
    · rw [hu] at h
      simp only [List.head?_cons, Option.some.injEq] at h
      simp [← h]

theorem head_stripBoth (p : Char → Bool) (l : List Char) (c : Char)
    (h : (stripBoth p l).head? = some c) : p c = false :=
  head_dropWhile_not p l c (head_dropTrailing p (l.dropWhile p) c h)

theorem getLast_stripBoth (p : Char → Bool) (l : List Char) (c : Char)
    (h : (stripBoth p l).getLast? = some c) : p c = false :=
  getLast_dropTrailing p (l.dropWhile p) c h

/-! ## Identity lemmas: a list already in normal form passes through -/

theorem map_id_of_mem {f : Char → Char} :
    ∀ l : List Char, (∀ c ∈ l, f c = c) → l.map f = l := by
  intro l
  induction l with
  | nil => intro _; rfl
  | cons a t ih =>
    intro h
    simp only [List.map_cons]
    rw [h a (List.mem_cons_self a t), ih (fun c hc => h c (List.mem_cons_of_mem a hc))]

theorem flatMap_id_of_mem {f : Char → List Char} :
    ∀ l : List Char, (∀ c ∈ l, f c = [c]) → l.flatMap f = l := by
  intro l
  induction l with
  | nil => intro _; rfl
  | cons a t ih =>
    intro h
    rw [List.flatMap_cons, h a (List.mem_cons_self a t),
      ih (fun c hc => h c (List.mem_cons_of_mem a hc))]
    rfl

theorem collapseRunsAux_id_of_none (p : Char → Bool) (r : Char) :
    ∀ (l : List Char) (b : Bool), (∀ c ∈ l, p c = false) →
      collapseRunsAux p r l b = l := by
  intro l
  induction l with
  | nil => intro b _; rfl
  | cons a t ih =>
    intro b h
    have ha : p a = false := h a (List.mem_cons_self a t)
    simp only [collapseRunsAux, ha, Bool.false_eq_true, if_false]
    rw [ih false (fun c hc => h c (List.mem_cons_of_mem a hc))]

theorem dropWhile_id_of_head (p : Char → Bool) :
    ∀ l : List Char, (∀ c, l.head? = some c → p c = false) → l.dropWhile p = l := by
  intro l
  cases l with
  | nil => intro _; rfl
  | cons a t =>
    intro h
    rw [List.dropWhile_cons, h a rfl]
    simp

theorem dropTrailing_id_of_getLast (p : Char → Bool) :
    ∀ l : List Char, (∀ c, l.getLast? = some c → p c = false) → dropTrailing p l = l := by
  intro l
  induction l with
  | nil => intro _; rfl
  | cons a t ih =>
    intro h
    simp only [dropTrailing]
    cases t with
    | nil =>
      have ha : p a = false := h a rfl
      simp [dropTrailing, ha]
    | cons a2 t2 =>
      have ht : dropTrailing p (a2 :: t2) = a2 :: t2 := by
        apply ih
        intro c hc
        apply h
        rw [List.getLast?_cons_cons]
        exact hc
      rw [ht]

theorem stripBoth_id (p : Char → Bool) (l : List Char)
    (hh : ∀ c, l.head? = some c → p c = false)
    (hl : ∀ c, l.getLast? = some c → p c = false) : stripBoth p l = l := by
  rw [stripBoth, dropWhile_id_of_head p l hh, dropTrailing_id_of_getLast p l hl]

/-- The state flag is irrelevant when the next character is not in a
run. -/
theorem collapseRunsAux_state_irrel (p : Char → Bool) (r : Char) :
    ∀ l : List Char, (∀ c, l.head? = some c → p c = false) →
      collapseRunsAux p r l true = collapseRunsAux p r l false := by
  intro l
  cases l with
  | nil => intro _; rfl
  | cons a t =>
    intro h
    have ha : p a = false := h a rfl
    simp [collapseRunsAux, ha]

/-- Collapsing runs is the identity on a list with no adjacent pair in
the class, provided every class character is the replacement itself. -/
theorem collapseRunsAux_id_of_noRun (p : Char → Bool) (r : Char)
    (hp : ∀ c, p c = true → c = r) :
    ∀ l : List Char, noRunP p l = true → collapseRunsAux p r l false = l := by
  intro l
  induction l with
  | nil => intro _; rfl
  | cons a t ih =>
    intro h
    simp only [collapseRunsAux]
    by_cases ha : p a
    · rw [if_pos ha]
      have hhead : ∀ c, t.head? = some c → p c = false := by
        intro c hc
        cases t with
        | nil => simp at hc
        | cons x xs =>
          simp only [List.head?_cons, Option.some.injEq] at hc
          simp only [noRunP, Bool.and_eq_true, Bool.not_eq_true'] at h
          rw [← hc]
          rcases Bool.and_eq_false_iff.mp h.1 with h1 | h1
          · rw [ha] at h1
            exact absurd h1 (by simp)
          · exact h1
      rw [collapseRunsAux_state_irrel p r t hhead, ih (noRunP_tail p a t h),
        hp a ha]
      simp
    · rw [if_neg ha, ih (noRunP_tail p a t h)]

/-! ## ASCII character facts -/

theorem charCode_ofNat (n : Nat) (h : n < 55296) : charCode (Char.ofNat n) = n := by
  simp [charCode, Char.ofNat, Nat.isValidChar, h, Char.toNat, Char.ofNatAux,
    UInt32.toNat, BitVec.toNat_ofNatLt]

theorem char_eq_of_code (c : Char) (n : Nat) (h : charCode c = n) : c = Char.ofNat n := by
  rw [← h, charCode]
  exact (Char.ofNat_toNat c).symm

theorem isUnder_eq_underscore (c : Char) (h : isUnder c = true) : c = underscore := by
  simp only [isUnder, decide_eq_true_eq] at h
  exact char_eq_of_code c 95 h

/-- Lowercasing an ASCII word character yields a single character that
is a lowercase letter, a digit, or the underscore. -/
theorem pyLower_word (a : Char) (h : isAlnumChar a = true ∨ isUnder a = true) :
    ∃ b, pyLower a = [b] ∧ (isLowerDigit b = true ∨ isUnder b = true) := by
  have hcode : (65 ≤ charCode a ∧ charCode a ≤ 90) ∨ (97 ≤ charCode a ∧ charCode a ≤ 122) ∨
      (48 ≤ charCode a ∧ charCode a ≤ 57) ∨ charCode a = 95 := by
    rcases h with h | h
    · simp only [isAlnumChar, isAsciiUpper, isAsciiLower, isAsciiDigit, Bool.or_eq_true,
        Bool.and_eq_true, decide_eq_true_eq] at h
      tauto
    · simp only [isUnder, decide_eq_true_eq] at h
      tauto
  by_cases hu : isAsciiUpper a = true
  · have hb : 65 ≤ charCode a ∧ charCode a ≤ 90 := by
      simpa only [isAsciiUpper, Bool.and_eq_true, decide_eq_true_eq] using hu
    refine ⟨Char.ofNat (charCode a + 32), by rw [pyLower, if_pos hu], Or.inl ?_⟩
    have hcc := charCode_ofNat (charCode a + 32) (by omega)
    simp only [isLowerDigit, isAsciiLower, isAsciiDigit, Bool.or_eq_true, Bool.and_eq_true,
      decide_eq_true_eq, hcc]
    omega
  · have hnu : ¬ (65 ≤ charCode a ∧ charCode a ≤ 90) := by
      simpa only [isAsciiUpper, Bool.and_eq_true, decide_eq_true_eq] using hu
    have h304 : ¬ charCode a = 304 := by omega
    refine ⟨a, by rw [pyLower, if_neg hu, if_neg h304], ?_⟩
    simp only [isLowerDigit, isAsciiLower, isAsciiDigit, isUnder, Bool.or_eq_true,
      Bool.and_eq_true, decide_eq_true_eq]
    omega

/-- Lowercasing is the identity on a normalized-token character. -/
theorem pyLower_id_of_token (c : Char)
    (h : isLowerDigit c = true ∨ isUnder c = true) : pyLower c = [c] := by
  have hcode : (97 ≤ charCode c ∧ charCode c ≤ 122) ∨
      (48 ≤ charCode c ∧ charCode c ≤ 57) ∨ charCode c = 95 := by
    rcases h with h | h
    · simp only [isLowerDigit, isAsciiLower, isAsciiDigit, Bool.or_eq_true,
        Bool.and_eq_true, decide_eq_true_eq] at h
      tauto
    · simp only [isUnder, decide_eq_true_eq] at h
      tauto
  have hu : ¬ isAsciiUpper c = true := by
    simp only [isAsciiUpper, Bool.and_eq_true, decide_eq_true_eq]
    omega
  have h304 : ¬ charCode c = 304 := by omega
  rw [pyLower, if_neg hu, if_neg h304]

theorem lowerDigit_not_under (c : Char) (h : isLowerDigit c = true) :
    isUnder c = false := by
  simp only [isLowerDigit, isAsciiLower, isAsciiDigit, Bool.or_eq_true,
    Bool.and_eq_true, decide_eq_true_eq] at h
  simp only [isUnder, decide_eq_false_iff_not, decide_eq_true_eq]
  omega

theorem lowerDigit_not_space (c : Char) (h : isLowerDigit c = true) :
    isPySpace c = false := by
  simp only [isLowerDigit, isAsciiLower, isAsciiDigit, Bool.or_eq_true,
    Bool.and_eq_true, decide_eq_true_eq] at h
  simp only [isPySpace, Bool.or_eq_false_iff, decide_eq_false_iff_not]
  omega

theorem under_not_space (c : Char) (h : isUnder c = true) : isPySpace c = false := by
  simp only [isUnder, decide_eq_true_eq] at h
  simp only [isPySpace, Bool.or_eq_false_iff, decide_eq_false_iff_not]
  omega

theorem under_not_spaceChar (c : Char) (h : isUnder c = true) : c ≠ spaceChar := by
  intro hc
  rw [hc] at h
  exact absurd h (by decide)

theorem lowerDigit_not_spaceChar (c : Char) (h : isLowerDigit c = true) :
    c ≠ spaceChar := by
  intro hc
  rw [hc] at h
  exact absurd h (by decide)

/-! ## Structural invariants of `snakeList` -/

theorem subNonWord_charset (l : List Char) (hascii : ∀ c ∈ l, charCode c < 128)
    (c : Char) (h : c ∈ subNonWordWithSpace l) :
    (isAlnumChar c = true ∨ isUnder c = true) ∨ isPySpace c = true := by
  rw [subNonWordWithSpace] at h
  obtain ⟨a, hamem, ha⟩ := List.mem_map.mp h
  by_cases hcond : isWordChar a || isPySpace a
  · rw [if_pos hcond] at ha
    rw [← ha]
    have haa := hascii a hamem
    have hcond2 : isWordChar a = true ∨ isPySpace a = true := by
      simpa using hcond
    rcases hcond2 with hw | hs
    · left
      have hnon : isNonAsciiLetter a = false := by
        simp only [isNonAsciiLetter, Bool.or_eq_false_iff, decide_eq_false_iff_not]
        omega
      simp only [isWordChar, isPyAlnum, Bool.or_eq_true] at hw
      rcases hw with (hw1 | hw1) | hw1
      · exact Or.inl hw1
      · rw [hnon] at hw1
        exact absurd hw1 (by simp)
      · exact Or.inr hw1
    · exact Or.inr hs
  · rw [if_neg hcond] at ha
    rw [← ha]
    right
    decide

theorem snakeList_charset (l : List Char) (hascii : ∀ c ∈ l, charCode c < 128)
    (c : Char) (h : c ∈ snakeList l) :
    isLowerDigit c = true ∨ isUnder c = true := by
  simp only [snakeList] at h
  have h5 := mem_stripBoth _ _ _ h
  rcases mem_collapseRunsAux _ _ _ _ _ h5 with ⟨h4, _⟩ | hr
  · obtain ⟨a3, ha3mem, ha3⟩ := List.mem_map.mp h4
    obtain ⟨a2, ha2mem, ha2pyl⟩ := List.mem_flatMap.mp ha3mem
    have ha2' := mem_stripBoth _ _ _ ha2mem
    rcases mem_collapseRunsAux _ _ _ _ _ ha2' with ⟨h1, hnsp⟩ | hsp
    · rcases subNonWord_charset _ hascii _ h1 with hw | hs
      · obtain ⟨b, hbeq, hbprop⟩ := pyLower_word a2 hw
        rw [hbeq, List.mem_singleton] at ha2pyl
        rw [ha2pyl] at ha3
        rcases hbprop with hld | hun
        · by_cases hsc : b = spaceChar
          · exact absurd hsc (lowerDigit_not_spaceChar _ hld)
          · rw [← ha3, if_neg hsc]
            exact Or.inl hld
        · by_cases hsc : b = spaceChar
          · exact absurd hsc (under_not_spaceChar _ hun)
          · rw [← ha3, if_neg hsc]
            exact Or.inr hun
      · rw [hs] at hnsp
        exact absurd hnsp (by simp)
    · rw [hsp] at ha2pyl
      have hps : pyLower spaceChar = [spaceChar] := by decide
      rw [hps, List.mem_singleton] at ha2pyl
      rw [ha2pyl] at ha3
      rw [← ha3, if_pos rfl]
      right
      decide
  · rw [hr]
    right
    decide

theorem snakeList_noRun (l : List Char) : noRunP isUnder (snakeList l) = true := by
  simp only [snakeList, stripBoth, collapseRuns]
  apply noRunP_dropTrailing
  apply noRunP_dropWhile
  apply noRunP_collapseRunsAux

theorem snakeList_head (l : List Char) (c : Char)
    (h : (snakeList l).head? = some c) : isUnder c = false := by
  simp only [snakeList] at h
  exact head_stripBoth isUnder _ c h

theorem snakeList_getLast (l : List Char) (c : Char)
    (h : (snakeList l).getLast? = some c) : isUnder c = false := by
  simp only [snakeList] at h
  exact getLast_stripBoth isUnder _ c h

theorem under_not_lowerDigit (c : Char) (h : isUnder c = true) :
    isLowerDigit c = false := by
  simp only [isUnder, decide_eq_true_eq] at h
  simp only [isLowerDigit, isAsciiLower, isAsciiDigit, Bool.or_eq_false_iff,
    Bool.and_eq_false_iff, decide_eq_false_iff_not]
  omega

/-- A non-empty list of lowercase letters, digits and underscores with
no double underscore and no underscore at either end is accepted by the
token automaton. -/
theorem tokenDFA_of_invariants :
    ∀ l : List Char,
      (∀ c ∈ l, isLowerDigit c = true ∨ isUnder c = true) →
      noRunP isUnder l = true →
      (∀ c, l.getLast? = some c → isUnder c = false) →
      (tokenDFA l true = true ∧
        ((∀ c, l.head? = some c → isUnder c = false) → l ≠ [] →
          tokenDFA l false = true)) := by
  intro l
  induction l with
  | nil =>
    intro _ _ _
    exact ⟨rfl, fun _ h => absurd rfl h⟩
  | cons a t ih =>
    intro hchar hrun hlast
    rcases hchar a (List.mem_cons_self a t) with hld | hun
    · have hstep : ∀ b : Bool, tokenDFA (a :: t) b = tokenDFA t true := by
        intro b
        simp [tokenDFA, hld]
      have htrue : tokenDFA t true = true := by
        cases t with
        | nil => rfl
        | cons x xs =>
          have hc : ∀ c ∈ x :: xs, isLowerDigit c = true ∨ isUnder c = true :=
            fun c hc => hchar c (List.mem_cons_of_mem a hc)
          have hr := noRunP_tail _ a _ hrun
          have hl : ∀ c, (x :: xs).getLast? = some c → isUnder c = false := by
            intro c hc
            apply hlast
            rw [List.getLast?_cons_cons]
            exact hc
          exact (ih hc hr hl).1
      exact ⟨by rw [hstep]; exact htrue, fun _ _ => by rw [hstep]; exact htrue⟩
    · have hldf : isLowerDigit a = false := under_not_lowerDigit a hun
      have tne : t ≠ [] := by
        intro h0
        subst h0
        have hl := hlast a rfl
        rw [hl] at hun
        exact absurd hun (by simp)
      cases t with
      | nil => exact absurd rfl tne
      | cons x xs =>
        have hc : ∀ c ∈ x :: xs, isLowerDigit c = true ∨ isUnder c = true :=
          fun c hc => hchar c (List.mem_cons_of_mem a hc)
        have hr := noRunP_tail _ a _ hrun
        have hl : ∀ c, (x :: xs).getLast? = some c → isUnder c = false := by
          intro c hc
          apply hlast
          rw [List.getLast?_cons_cons]
          exact hc
        have hxnot : isUnder x = false := by
          simp only [noRunP, Bool.and_eq_true, Bool.not_eq_true'] at hrun
          rcases Bool.and_eq_false_iff.mp hrun.1 with h1 | h1
          · rw [hun] at h1
            exact absurd h1 (by simp)
          · exact h1
        have hfalse : tokenDFA (x :: xs) false = true := by
          apply (ih hc hr hl).2
          · intro c hc'
            simp only [List.head?_cons, Option.some.injEq] at hc'
            rw [← hc']
            exact hxnot
          · simp
        constructor
        · show (if isLowerDigit a then tokenDFA (x :: xs) true
            else if isUnder a then true && tokenDFA (x :: xs) false else false) = true
          rw [hldf, hun, hfalse]
          simp
        · intro hhead _
          have hf := hhead a rfl
          rw [hun] at hf
          exact absurd hf (by simp)

/-- C4: refuted as stated.  Python's `\w` keeps every Unicode word
character: on the input `é` (U+00E9) the normalizer keeps the letter
unchanged, so the output is non-empty and does not match
`^[a-z0-9]+(_[a-z0-9]+)*$`. -/
theorem c4_unicode_counterexample :
    to_snake_case (String.mk [Char.ofNat 233]) = String.mk [Char.ofNat 233] ∧
    String.mk [Char.ofNat 233] ≠ ("") ∧
    matchesTokenRegex (String.mk [Char.ofNat 233]) = false :=
  ⟨by decide, by decide, by decide⟩

/-- C4 (amended): for every input string of ASCII characters the output
of normalization either is the empty string or matches
`^[a-z0-9]+(_[a-z0-9]+)*$`: only ASCII lowercase letters, digits, and
single interior underscores.  (Non-ASCII word characters survive
normalization and escape the regex.) -/
theorem c4_token_shape :
    ∀ s : String, (∀ c ∈ s.data, charCode c < 128) →
      to_snake_case s = "" ∨ matchesTokenRegex (to_snake_case s) = true := by
  intro s hascii
  cases ht : snakeList s.data with
  | nil =>
    left
    show String.mk (snakeList s.data) = ""
    rw [ht]
  | cons x xs =>
    right
    show tokenDFA (String.mk (snakeList s.data)).data false = true
    have hchar : ∀ c ∈ snakeList s.data, isLowerDigit c = true ∨ isUnder c = true :=
      fun c hc => snakeList_charset s.data hascii c hc
    have hrun := snakeList_noRun s.data
    have hlast : ∀ c, (snakeList s.data).getLast? = some c → isUnder c = false :=
      fun c hc => snakeList_getLast s.data c hc
    have hhead : ∀ c, (snakeList s.data).head? = some c → isUnder c = false :=
      fun c hc => snakeList_head s.data c hc
    exact (tokenDFA_of_invariants (snakeList s.data) hchar hrun hlast).2 hhead
      (by rw [ht]; simp)

theorem c4_token_shape_witness :
    to_snake_case ("John Quincy Adams") = "" ∨
    matchesTokenRegex (to_snake_case ("John Quincy Adams")) = true :=
  c4_token_shape ("John Quincy Adams") (by decide)

/-! ## Idempotence: a normalized token passes through unchanged -/

theorem lowerDigit_word (c : Char) (h : isLowerDigit c = true) : isWordChar c = true := by
  simp only [isLowerDigit, Bool.or_eq_true] at h
  simp only [isWordChar, isPyAlnum, isAlnumChar, Bool.or_eq_true]
  tauto

theorem under_word (c : Char) (h : isUnder c = true) : isWordChar c = true := by
  simp only [isWordChar, Bool.or_eq_true]
  tauto

/-- All the normalization passes are the identity on a list that is
already a normalized token. -/
theorem snakeList_of_normal (t : List Char)
    (hchar : ∀ c ∈ t, isLowerDigit c = true ∨ isUnder c = true)
    (hrun : noRunP isUnder t = true)
    (hhead : ∀ c, t.head? = some c → isUnder c = false)
    (hlast : ∀ c, t.getLast? = some c → isUnder c = false) :
    snakeList t = t := by
  have hnospace : ∀ c ∈ t, isPySpace c = false :=
    fun c hc => (hchar c hc).elim (lowerDigit_not_space c) (under_not_space c)
  have step1 : subNonWordWithSpace t = t := by
    rw [subNonWordWithSpace]
    apply map_id_of_mem
    intro c hc
    have hw : isWordChar c = true :=
      (hchar c hc).elim (lowerDigit_word c) (under_word c)
    simp [hw]
  have step2 : collapseRuns isPySpace spaceChar t = t := by
    rw [collapseRuns]
    exact collapseRunsAux_id_of_none _ _ t false hnospace
  have step3 : stripWS t = t := by
    rw [stripWS]
    apply stripBoth_id
    · intro c hc
      exact hnospace c (List.mem_of_mem_head? (by simp [hc]))
    · intro c hc
      exact hnospace c (List.mem_of_mem_getLast? (by simp [hc]))
  have step4 : t.flatMap pyLower = t := by
    apply flatMap_id_of_mem
    intro c hc
    exact pyLower_id_of_token c (hchar c hc)
  have step5 : t.map (fun c => if c = spaceChar then underscore else c) = t := by
    apply map_id_of_mem
    intro c hc
    have hne : c ≠ spaceChar :=
      (hchar c hc).elim (lowerDigit_not_spaceChar c) (under_not_spaceChar c)
    rw [if_neg hne]
  have step6 : collapseRuns isUnder underscore t = t := by
    rw [collapseRuns]
    exact collapseRunsAux_id_of_noRun isUnder underscore isUnder_eq_underscore t hrun
  have step7 : stripBoth isUnder t = t := stripBoth_id _ _ hhead hlast
  simp only [snakeList]
  rw [step1, step2, step3, step4, step5, step6, step7]

/-- C9: refuted as stated.  Normalization is not idempotent on Unicode
input: `İ` (U+0130) is a word character and lowercases to `i` followed
by the combining dot above U+0307, so the first pass yields that
two-character string; on the second pass U+0307 is not a word character,
becomes a space and is trimmed away, leaving `i`. -/
theorem c9_unicode_counterexample :
    to_snake_case (String.mk [Char.ofNat 304]) =
      String.mk [Char.ofNat 105, Char.ofNat 775] ∧
    to_snake_case (to_snake_case (String.mk [Char.ofNat 304])) =
      String.mk [Char.ofNat 105] ∧
    to_snake_case (to_snake_case (String.mk [Char.ofNat 304])) ≠
      to_snake_case (String.mk [Char.ofNat 304]) :=
  ⟨by decide, by decide, by decide⟩

/-- C9 (amended): normalization is idempotent on every string of ASCII
characters: `normalize (normalize s) = normalize s`. -/
theorem c9_normalize_idempotent :
    ∀ s : String, (∀ c ∈ s.data, charCode c < 128) →
      to_snake_case (to_snake_case s) = to_snake_case s := by
  intro s hascii
  have heq := snakeList_of_normal (snakeList s.data)
    (fun c hc => snakeList_charset s.data hascii c hc)
    (snakeList_noRun s.data)
    (fun c hc => snakeList_head s.data c hc)
    (fun c hc => snakeList_getLast s.data c hc)
  show String.mk (snakeList (snakeList s.data)) = String.mk (snakeList s.data)
  rw [heq]

theorem c9_normalize_idempotent_witness :
    to_snake_case (to_snake_case ("  John--Quincy  ADAMS_ ")) =
      to_snake_case ("  John--Quincy  ADAMS_ ") :=
  c9_normalize_idempotent ("  John--Quincy  ADAMS_ ") (by decide)

/-- C3: refuted as stated.  The source replaces a non-word character
with a space (a word separator) instead of deleting it: on `a-b` the
code produces `a_b`, while the specification's algorithm, which strips
the hyphen, produces `ab`. -/
theorem c3_normalization_counterexample :
    to_snake_case ("a-b") = ("a_b") ∧
    spec_normalize ("a-b") = ("ab") ∧
    to_snake_case ("a-b") ≠ spec_normalize ("a-b") :=
  ⟨by decide, by decide, by decide⟩

/-- C3 (amended): normalization replaces every character that is not a
word character (alphanumeric or underscore) and not whitespace by a
space, then collapses whitespace runs, trims, lowercases, turns spaces
into underscores, collapses repeated underscores and trims leading and
trailing underscores.  A hyphen therefore becomes a word separator and
an underscore is kept. -/
theorem c3_normalization_algorithm :
    (∀ s : String, to_snake_case s = spec_normalize_amended s) ∧
    to_snake_case ("a-b") = ("a_b") ∧
    to_snake_case ("a_b") = ("a_b") := by
  refine ⟨?_, by decide, by decide⟩
  intro s
  have hfun : (fun c => if isWordChar c || isPySpace c then c else spaceChar)
      = (fun c => if isPyAlnum c || isUnder c || isPySpace c then c else spaceChar) := by
    funext c
    simp [isWordChar]
  simp only [to_snake_case, snakeList, subNonWordWithSpace, spec_normalize_amended]
  rw [hfun]

/-! ## The located name is always trimmed and non-empty -/

theorem stripBoth_idem (p : Char → Bool) (l : List Char) :
    stripBoth p (stripBoth p l) = stripBoth p l :=
  stripBoth_id p _ (fun c hc => head_stripBoth p l c hc)
    (fun c hc => getLast_stripBoth p l c hc)

theorem findNameLines_normal :
    ∀ (ls : List (List Char)) (r : List Char), findNameLines ls = some r →
      r ≠ [] ∧ stripWS r = r := by
  intro ls
  induction ls with
  | nil => intro r h; simp [findNameLines] at h
  | cons line rest ih =>
    intro r h
    have hfb : ∀ r, (match rest with
        | [] => findNameLines rest
        | next :: rest2 =>
          if stripWS next ≠ [] then some (stripWS next)
          else
            match rest2 with
            | [] => findNameLines rest
            | nn :: _ =>
              if stripWS nn ≠ [] then some (stripWS nn) else findNameLines rest) =
          some r → r ≠ [] ∧ stripWS r = r := by
      intro r h
      cases rest with
      | nil =>
        dsimp only at h
        exact ih r h
      | cons next rest2 =>
        dsimp only at h
        by_cases hnext : stripWS next = []
        · rw [if_neg (by simpa using hnext)] at h
          cases rest2 with
          | nil =>
            dsimp only at h
            exact ih r h
          | cons nn rest3 =>
            dsimp only at h
            by_cases hnn : stripWS nn = []
            · rw [if_neg (by simpa using hnn)] at h
              exact ih r h
            · rw [if_pos hnn] at h
              have hr : stripWS nn = r := Option.some.inj h
              rw [← hr]
              exact ⟨hnn, stripBoth_idem isPySpace nn⟩
        · rw [if_pos hnext] at h
          have hr : stripWS next = r := Option.some.inj h
          rw [← hr]
          exact ⟨hnext, stripBoth_idem isPySpace next⟩
    simp only [findNameLines] at h
    by_cases hp : searchPhraseB line
    · rw [if_pos hp] at h
      cases hsc : searchCapture line with
      | some g =>
        rw [hsc] at h
        dsimp only at h
        by_cases hg : stripWS g = []
        · rw [if_pos hg] at h
          dsimp only at h
          exact hfb r h
        · rw [if_neg hg] at h
          dsimp only at h
          have hr : stripWS g = r := Option.some.inj h
          rw [← hr]
          exact ⟨hg, stripBoth_idem isPySpace g⟩
      | none =>
        rw [hsc] at h
        dsimp only at h
        exact hfb r h
    · rw [if_neg hp] at h
      exact ih r h

/-- C10: whenever the name locator returns a name, that string is
non-empty and carries no leading or trailing whitespace (it is a fixed
point of whitespace stripping). -/
theorem c10_located_name_trimmed :
    ∀ (text s : String), find_certification_name text = some s →
      s ≠ ("") ∧ s.data = stripWS s.data := by
  intro text s h
  rw [find_certification_name] at h
  by_cases ht : text.data = []
  · rw [if_pos ht] at h
    simp at h
  · rw [if_neg ht] at h
    cases hf : findNameLines (splitLines text.data) with
    | none =>
      rw [hf] at h
      simp at h
    | some r =>
      rw [hf] at h
      simp only [Option.map_some', Option.some.injEq] at h
      obtain ⟨hne, hid⟩ := findNameLines_normal _ r hf
      constructor
      · intro h0
        rw [h0] at h
        exact hne (congrArg String.data h)
      · rw [← h]
        exact hid.symm

theorem c10_located_name_trimmed_witness :
    ("John Quincy Adams" : String) ≠ ("") ∧
    ("John Quincy Adams" : String).data = stripWS (("John Quincy Adams" : String).data) :=
  c10_located_name_trimmed
    ("Certificate\nThis is to certify that\nJohn Quincy Adams\nhas completed")
    ("John Quincy Adams") (by decide)

/-! ## The source's scanning loop equals the index-based specification scan -/

theorem specScan_eq_findNameLines :
    ∀ (lines : List (List Char)) (fuel i : Nat), lines.length ≤ i + fuel →
      specScan specSameLine lines fuel i = findNameLines (lines.drop i) := by
  intro lines fuel
  induction fuel with
  | zero =>
    intro i hle
    rw [List.drop_of_length_le (by omega)]
    rfl
  | succ fuel ih =>
    intro i hle
    cases hget : lines.get? i with
    | none =>
      have hlen : lines.length ≤ i := by
        rw [List.get?_eq_getElem?] at hget
        exact List.getElem?_eq_none_iff.mp hget
      rw [List.drop_of_length_le hlen]
      simp only [specScan, hget]
      rfl
    | some line =>
      have hex : i < lines.length ∧ lines[i]? = some line := by
        rw [List.get?_eq_getElem?] at hget
        obtain ⟨h1, h2⟩ := List.getElem?_eq_some_iff.mp hget
        exact ⟨h1, by rw [List.getElem?_eq_some_iff]; exact ⟨h1, h2⟩⟩
      have hdrop : lines.drop i = line :: lines.drop (i + 1) := by
        rw [List.drop_eq_getElem_cons hex.1]
        obtain ⟨h1, h2⟩ := List.getElem?_eq_some_iff.mp hex.2
        rw [h2]
      rw [hdrop]
      simp only [specScan, hget]
      simp only [findNameLines]
      by_cases hp : searchPhraseB line
      · rw [if_pos hp, if_pos hp]
        have hsl_eq : (match searchCapture line with
            | some g => if stripWS g = [] then none else some (stripWS g)
            | none => none) = specSameLine line := rfl
        rw [hsl_eq]
        cases hsl : specSameLine line with
        | some n => rfl
        | none =>
          dsimp only
          have hh1 : lines.get? (i + 1) = (lines.drop (i + 1)).head? := by
            rw [List.head?_eq_getElem?, List.getElem?_drop, Nat.add_zero,
              List.get?_eq_getElem?]
          have hh2 : lines.get? (i + 2) = (lines.drop (i + 2)).head? := by
            rw [List.head?_eq_getElem?, List.getElem?_drop, Nat.add_zero,
              List.get?_eq_getElem?]
          have hdd : (lines.drop (i + 1)).drop 1 = lines.drop (i + 2) := by
            rw [List.drop_drop]
          cases hd1 : lines.drop (i + 1) with
          | nil =>
            have h1none : lines.get? (i + 1) = none := by
              rw [hh1, hd1]
              rfl
            have h2none : lines.get? (i + 2) = none := by
              rw [hh2, ← hdd, hd1]
              rfl
            rw [h1none, h2none]
            simp only [specTake]
            rw [ih (i + 1) (by omega), hd1]
          | cons next rest2 =>
            have h1some : lines.get? (i + 1) = some next := by
              rw [hh1, hd1]
              rfl
            rw [h1some]
            simp only [specTake]
            by_cases hnext : stripWS next = []
            · rw [if_pos hnext, if_neg (by simpa using hnext)]
              dsimp only
              have h2head : lines.get? (i + 2) = rest2.head? := by
                rw [hh2, ← hdd, hd1]
                rfl
              cases rest2 with
              | nil =>
                rw [h2head]
                simp only [specTake, List.head?_nil]
                rw [ih (i + 1) (by omega), hd1]
              | cons nn rest3 =>
                rw [h2head]
                simp only [specTake, List.head?_cons]
                by_cases hnn : stripWS nn = []
                · rw [if_pos hnn, if_neg (by simpa using hnn)]
                  rw [ih (i + 1) (by omega), hd1]
                · rw [if_neg hnn, if_pos hnn]
            · rw [if_neg hnext, if_pos hnext]
      · rw [if_neg hp, if_neg hp]
        rw [ih (i + 1) (by omega)]

/-- C7: refuted as stated.  On the line `This is to certify that: Bob`
there is non-empty trailing same-line text (`: Bob`), so the claim's
algorithm returns it, but the source's capture regex requires at least
one whitespace character after `that`, fails, and takes the next line
`Alice` instead. -/
theorem c7_locator_counterexample :
    find_certification_name ("This is to certify that: Bob\nAlice") = some ("Alice") ∧
    spec_locate_claim ("This is to certify that: Bob\nAlice") = some (": Bob") ∧
    find_certification_name ("This is to certify that: Bob\nAlice") ≠
      spec_locate_claim ("This is to certify that: Bob\nAlice") :=
  ⟨by decide, by decide, by decide⟩

/-- C7 (amended): the locator scans lines in order for the phrase; at a
matching line it returns the same-line text captured after the phrase
and at least one whitespace character (trimmed, if non-empty), else the
next line (trimmed, if non-empty), else the line after that; if none of
these yields a name it continues scanning from the following line, and
returns NotFound when the lines are exhausted; the first satisfying
occurrence wins. -/
theorem c7_locator_scan :
    ∀ text : String, find_certification_name text = spec_locate_amended text := by
  intro text
  rw [find_certification_name, spec_locate_amended]
  by_cases ht : text.data = []
  · rw [if_pos ht, if_pos ht]
  · rw [if_neg ht, if_neg ht]
    congr 1
    rw [specScan_eq_findNameLines (splitLines text.data) (splitLines text.data).length 0
      (by omega), List.drop_zero]
